import Mathlib

/-!
# Device-side LBP helpers (`opencv2/gpu/device/lbp.hpp`)

A shallow embedding of the emulated atomics `__atomicInc`, `__atomicMin`, of the
rectangle predicate `InSameComponint` and of the block-local labelling routine
`partition`, followed by the properties established about them.

Conventions of the embedding.

* `int` values are `Int`; `unsigned int` words are `Nat` reduced modulo `2 ^ 32`
  after every operation that can leave the range.
* Shared memory written by several lanes is explicit state.  A lane is a little
  program whose individual reads and writes are the steps of a transition
  function; a schedule names the lane that moves next.
* `float` arithmetic is not interpreted: `InSameComponint` is written over an
  arbitrary `FloatModel`, and instantiated with exact rationals where a concrete
  value is needed.
-/

namespace Lbp

/-! ## Data model -/

/-- CUDA `int4`: the detection rectangle `(x, y, width, height)` is stored as
`(x, y, z, w)`. -/
structure Int4 where
  x : Int
  y : Int
  z : Int
  w : Int
deriving DecidableEq, Repr

instance : Inhabited Int4 := ⟨⟨0, 0, 0, 0⟩⟩

/-! ## `__atomicInc` -/

/-- Width of `unsigned int` in bytes (`sizeof(unsigned int)`). -/
def sizeofUInt : Nat := 4

/-- Reduction of an `unsigned int` result to its 32 bits. -/
def u32 (a : Nat) : Nat := a % 2 ^ 32

/-- The macro `TAG_MASK`, defined as
`( (1U << ( (sizeof(unsigned int) << 3) - 5U)) - 1U )`. -/
def TAG_MASK : Nat := u32 (u32 (1 <<< ((sizeofUInt <<< 3) - 5)) + 2 ^ 32 - 1)

/-- The tag of a lane:
`unsigned int tag = threadIdx.x << ( (sizeof(unsigned int) << 3) - 5U);`. -/
def threadTag (threadIdx : Nat) : Nat := u32 (threadIdx <<< ((sizeofUInt <<< 3) - 5))

/-- The `do { ... } while (*address != count)` loop of `__atomicInc`, run by
lane `threadIdx` while no other lane touches `*address`; `mem` is the word at
`address`.  The result is the word left in memory and the returned value
`(count & TAG_MASK) - 1`; `none` when the fuel runs out. -/
def atomicIncLoop (threadIdx : Nat) : Nat → Nat → Option (Nat × Nat)
  | 0, _ => none
  | fuel + 1, mem =>
    let count := mem &&& TAG_MASK
    let count := threadTag threadIdx ||| u32 (count + 1)
    let mem := count
    if mem ≠ count then atomicIncLoop threadIdx fuel mem
    else some (mem, u32 ((count &&& TAG_MASK) + 2 ^ 32 - 1))

/-- The call `__atomicInc(address, val)` in an uncontended execution (`val` is
unused by the source as well). -/
def __atomicInc (fuel threadIdx mem : Nat) (_val : Nat) : Option (Nat × Nat) :=
  atomicIncLoop threadIdx fuel mem

/-! ## `__atomicMin` -/

/-- Control points of one call of `__atomicMin`. -/
inductive MinPc where
  /-- about to evaluate `T count = min(*address, val);` -/
  | entry (val : Int)
  /-- about to execute `*address = count;` -/
  | store (count : Int)
  /-- about to evaluate the loop condition `*address > count` -/
  | test (count : Int)
  /-- returned `count` -/
  | ret (count : Int)
deriving DecidableEq, Repr

/-- One memory access of a lane running `__atomicMin`; `mem` is the value stored
at `address`. -/
def minStep (mem : Int) : MinPc → Int × MinPc
  | .entry val => (mem, .store (min mem val))
  | .store count => (count, .test count)
  | .test count => if mem > count then (mem, .store count) else (mem, .ret count)
  | .ret count => (mem, .ret count)

/-- A single lane running for `fuel` steps with nobody else writing. -/
def minSolo : Nat → Int → MinPc → Int × MinPc
  | 0, mem, pc => (mem, pc)
  | fuel + 1, mem, pc => minSolo fuel (minStep mem pc).1 (minStep mem pc).2

/-- The call `__atomicMin(address, val)` in an uncontended execution: the value left at
`address` and the returned value, `none` if the call has not returned within
`fuel` memory accesses. -/
def __atomicMin (fuel : Nat) (mem val : Int) : Option (Int × Int) :=
  match minSolo fuel mem (.entry val) with
  | (mem1, .ret count) => some (mem1, count)
  | _ => none

/-- The hardware `atomicMin(address, val)` of CUDA, which the source calls on
architectures that have it: it stores `min(old, val)` and returns `old`. -/
def atomicMin (mem val : Int) : Int × Int := (min mem val, mem)

/-- Two lanes running `__atomicMin` on the same address. -/
structure MinPair where
  mem : Int
  pcA : MinPc
  pcB : MinPc
deriving DecidableEq, Repr

/-- The lane named by `lane` (`false` is lane A, `true` is lane B) performs its
next memory access. -/
def MinPair.step (s : MinPair) (lane : Bool) : MinPair :=
  if lane then ⟨(minStep s.mem s.pcB).1, s.pcA, (minStep s.mem s.pcB).2⟩
  else ⟨(minStep s.mem s.pcA).1, (minStep s.mem s.pcA).2, s.pcB⟩

/-- Two calls `__atomicMin(address, a)` and `__atomicMin(address, b)` interleaved
as `sched` says, from the stored value `v`. -/
def minRace (v a b : Int) (sched : List Bool) : MinPair :=
  sched.foldl MinPair.step ⟨v, .entry a, .entry b⟩

/-! ## `InSameComponint` -/

/-- The floating-point operations `InSameComponint` uses, left uninterpreted. -/
structure FloatModel (F : Type) where
  /-- conversion of an `int` operand -/
  ofInt : Int → F
  /-- multiplication -/
  mul : F → F → F
  /-- the literal `0.5` -/
  half : F
  /-- the comparison `a <= b` -/
  le : F → F → Bool

/-- Exact rational arithmetic as a `FloatModel`. -/
def ratModel : FloatModel ℚ where
  ofInt := fun i => (i : ℚ)
  mul := fun a b => a * b
  half := 1 / 2
  le := fun a b => decide (a ≤ b)

/-- How `int` sums and differences are taken. -/
inductive IntMode where
  /-- mathematical integers -/
  | exact
  /-- wrapping arithmetic on 32 bits -/
  | wrap32
deriving DecidableEq, Repr

/-- The representative in `[-2^31, 2^31)` of an integer modulo `2^32`. -/
def toInt32 (a : Int) : Int := (a + 2147483648) % 4294967296 - 2147483648

/-- Result of an `int` operation in the given mode. -/
def IntMode.norm : IntMode → Int → Int
  | .exact, a => a
  | .wrap32, a => toInt32 a

/-- The function `abs` on `int`. -/
def iabs (m : IntMode) (a : Int) : Int := m.norm (if a < 0 then -a else a)

/-- The tolerance `float delta = eps * (min(r1.z, r2.z) + min(r1.w, r2.w)) * 0.5;`. -/
def InSameComponint.delta {F : Type} (M : FloatModel F) (m : IntMode) (eps : F)
    (r1 r2 : Int4) : F :=
  M.mul (M.mul eps (M.ofInt (m.norm (min r1.z r2.z + min r1.w r2.w)))) M.half

/-- The call operator `InSameComponint::operator()`, for the functor built with `eps`. -/
def InSameComponint {F : Type} (M : FloatModel F) (m : IntMode) (eps : F)
    (r1 r2 : Int4) : Bool :=
  let delta := InSameComponint.delta M m eps r1 r2
  M.le (M.ofInt (iabs m (m.norm (r1.x - r2.x)))) delta
    && M.le (M.ofInt (iabs m (m.norm (r1.y - r2.y)))) delta
    && M.le (M.ofInt (iabs m (m.norm (m.norm (m.norm (r1.x + r1.z) - r2.x) - r2.z)))) delta
    && M.le (M.ofInt (iabs m (m.norm (m.norm (m.norm (r1.y + r1.w) - r2.y) - r2.w)))) delta

/-! ## `partition` -/

/-- The value an atomic minimise leaves at an address holding `mem`: through
`__atomicMin` when `__CUDA_ARCH__ < 120` (`emulated`), through the hardware
`atomicMin` otherwise.  The call is the single step of its lane, so the emulated
loop runs uncontended; three memory accesses are given to it. -/
def atomicMinStored (emulated : Bool) (mem val : Int) : Int :=
  if emulated then
    match __atomicMin 3 mem val with
    | some r => r.1
    | none => mem
  else (atomicMin mem val).1

/-- Body of the loop of `partition` for lane `tid` at index `id`. -/
def partitionStep (emulated : Bool) (vec : List Int4) (predicate : Int4 → Int4 → Bool)
    (tid id : Nat) (labels : List Int) : List Int :=
  if tid ≠ id ∧ predicate (vec.getD tid default) (vec.getD id default) = true then
    let p := labels.getD tid 0
    let q := labels.getD id 0
    if p < q then labels.set id (atomicMinStored emulated (labels.getD id 0) p)
    else if p > q then labels.set tid (atomicMinStored emulated (labels.getD tid 0) q)
    else labels
  else labels

/-- State of the block between the two barriers of `partition`: the shared
`labels` array and, for every lane, the loop variable `id` it will visit next. -/
structure Block where
  labels : List Int
  next : Nat → Nat

/-- Lane `tid` executes one iteration of `for (id = 0; id < n; id++)`; a lane
that left the loop (or that does not exist) does nothing. -/
def Block.step (emulated : Bool) (vec : List Int4) (n : Nat)
    (predicate : Int4 → Int4 → Bool) (s : Block) (tid : Nat) : Block :=
  if tid < n ∧ s.next tid < n then
    ⟨partitionStep emulated vec predicate tid (s.next tid) s.labels,
      Function.update s.next tid (s.next tid + 1)⟩
  else s

/-- The assignment `labels[tid] = tid;` executed by the lanes `0, ..., n - 1`, up to
the first `__syncthreads()`. -/
def initLabels (n : Nat) (labels : List Int) : List Int :=
  (List.range n).foldl (fun l tid => l.set tid (tid : Int)) labels

/-- The block after the lanes took the steps listed in `sched`. -/
def partitionRun (emulated : Bool) (vec : List Int4) (n : Nat) (labels : List Int)
    (predicate : Int4 → Int4 → Bool) (sched : List Nat) : Block :=
  sched.foldl (Block.step emulated vec n predicate) ⟨initLabels n labels, fun _ => 0⟩

/-- The routine `partition(vec, n, labels, predicate)` run by `n` lanes whose loop
iterations are interleaved as `sched` says: the `labels` array after the second
`__syncthreads()`. -/
def partition (emulated : Bool) (vec : List Int4) (n : Nat) (labels : List Int)
    (predicate : Int4 → Int4 → Bool) (sched : List Nat) : List Int :=
  (partitionRun emulated vec n labels predicate sched).labels

/-- A complete interleaving of the loops of `n` lanes: only lanes below `n`
move, and each of them moves `n` times. -/
def IsSchedule (n : Nat) (sched : List Nat) : Prop :=
  (∀ t ∈ sched, t < n) ∧ ∀ t < n, sched.count t = n

instance (n : Nat) (sched : List Nat) : Decidable (IsSchedule n sched) := by
  unfold IsSchedule; infer_instance

/-- Rectangles `i` and `j` (both below `n`) satisfy the predicate. -/
def Edge (vec : List Int4) (n : Nat) (predicate : Int4 → Int4 → Bool) (i j : Nat) : Prop :=
  i < n ∧ j < n ∧ predicate (vec.getD i default) (vec.getD j default) = true

/-- Index `j` is connected to `i` through a chain of predicate-satisfying pairs. -/
def Conn (vec : List Int4) (n : Nat) (predicate : Int4 → Int4 → Bool) (i j : Nat) : Prop :=
  Relation.ReflTransGen (Edge vec n predicate) i j

/-- The label `l` is the smallest index connected to `i`. -/
def IsComponentMin (vec : List Int4) (n : Nat) (predicate : Int4 → Int4 → Bool)
    (i : Nat) (l : Int) : Prop :=
  ∃ m : Nat, l = (m : Int) ∧ Conn vec n predicate i m ∧
    ∀ j, Conn vec n predicate i j → m ≤ j

/-- The schedule in which lane `0` runs its whole loop, then lane `1`, and so on. -/
def sequentialSchedule (n : Nat) : List Nat :=
  (List.range n).flatMap fun t => List.replicate n t

/-- The schedule in which the lanes advance in lockstep: every lane visits
`id = 0`, then every lane visits `id = 1`, and so on. -/
def lockstepSchedule (n : Nat) : List Nat :=
  (List.replicate n (List.range n)).flatten


/-- Soundness of a labels array: every label below `n` is an index, at most its
own position, of a rectangle connected to that position. -/
def Sound (vec : List Int4) (n : Nat) (predicate : Int4 → Int4 → Bool)
    (labels : List Int) : Prop :=
  ∀ i < n, ∃ m : Nat, labels.getD i 0 = (m : Int) ∧ m ≤ i ∧ Conn vec n predicate i m

/-- What the comparisons already made guarantee: lane `t` has a label no larger
than any partner `j` it has visited, and of two partners `j1 < j2` of one lane
the later one has a label no larger than `j1`. -/
def Bound (vec : List Int4) (n : Nat) (predicate : Int4 → Int4 → Bool) (s : Block) : Prop :=
  n ≤ s.labels.length
    ∧ (∀ t, s.next t ≤ n)
    ∧ (∀ i < n, s.labels.getD i 0 ≤ (i : Int))
    ∧ (∀ t j, t < n → j < s.next t → t ≠ j →
        predicate (vec.getD t default) (vec.getD j default) = true →
        s.labels.getD t 0 ≤ (j : Int))
    ∧ (∀ t j1 j2, t < n → j1 < j2 → j2 < s.next t → t ≠ j1 → t ≠ j2 →
        predicate (vec.getD t default) (vec.getD j1 default) = true →
        predicate (vec.getD t default) (vec.getD j2 default) = true →
        s.labels.getD j2 0 ≤ (j1 : Int))

/-- Four rectangles of size `10 x 10` whose predicate-satisfying pairs (for
`eps = 1/2`, so `delta = 5`) form the chain `1 - 2 - 3 - 0`. -/
def chain4 : List Int4 := [⟨15, 0, 10, 10⟩, ⟨0, 0, 10, 10⟩, ⟨5, 0, 10, 10⟩, ⟨10, 0, 10, 10⟩]

/-- Rectangles whose left edges are at most `5` apart: on `chain4` this is what
`InSameComponint` with `eps = 1/2` computes. -/
def near5 (r1 r2 : Int4) : Bool := decide ((r1.x - r2.x).natAbs ≤ 5)

/-- The rectangles of the concrete scenario of the specification. -/
def scenario : List Int4 := [⟨0, 0, 10, 10⟩, ⟨1, 1, 10, 10⟩, ⟨100, 100, 10, 10⟩]

/-- Three rectangles of size `10 x 10` in a chain for `eps = 1/2`: the middle one
is at index `0`, the two ends at indices `1` and `2`. -/
def chain3 : List Int4 := [⟨5, 0, 10, 10⟩, ⟨0, 0, 10, 10⟩, ⟨10, 0, 10, 10⟩]

/-- Two rectangles far from each other. -/
def apart : List Int4 := [⟨0, 0, 10, 10⟩, ⟨100, 100, 10, 10⟩]

/-! ## The emulated atomics -/

theorem minSolo_ret (fuel : Nat) (mem count : Int) :
    minSolo fuel mem (.ret count) = (mem, .ret count) := by
  induction fuel with
  | zero => rfl
  | succ k ih => simpa [minSolo, minStep] using ih

theorem minSolo_entry (fuel : Nat) (v val : Int) :
    minSolo (fuel + 3) v (.entry val) = (min v val, .ret (min v val)) := by
  have h : minSolo (fuel + 3) v (.entry val)
      = minSolo fuel (min v val) (.ret (min v val)) := by
    simp [minSolo, minStep]
  rw [h, minSolo_ret]

theorem atomicMin_emulated_eq (fuel : Nat) (v val : Int) :
    __atomicMin (fuel + 3) v val = some (min v val, min v val) := by
  unfold __atomicMin
  rw [minSolo_entry]

theorem atomicMinStored_eq (emulated : Bool) (mem val : Int) :
    atomicMinStored emulated mem val = min mem val := by
  cases emulated
  · simp [atomicMinStored, atomicMin]
  · have h := atomicMin_emulated_eq 0 mem val
    simp only [Nat.zero_add] at h
    simp [atomicMinStored, h]

/-- C7. Run alone, `__atomicMin(address, val)` returns after three memory
accesses (and so for every larger fuel), leaves `min(v, val)` at the address and
returns `min(v, val)`; the stored value is not raised, it is the value the
hardware `atomicMin` leaves, and the two architecture branches of `partition`
perform the same update of `labels`. -/
theorem atomicMin_uncontended (v val : Int) (fuel : Nat) :
    __atomicMin (fuel + 3) v val = some (min v val, min v val)
      ∧ min v val ≤ v
      ∧ (atomicMin v val).1 = min v val
      ∧ ∀ (vec : List Int4) (predicate : Int4 → Int4 → Bool) (tid id : Nat)
          (labels : List Int),
          partitionStep true vec predicate tid id labels
            = partitionStep false vec predicate tid id labels := by
  refine ⟨atomicMin_emulated_eq fuel v val, min_le_left _ _, rfl, ?_⟩
  intro vec predicate tid id labels
  simp only [partitionStep, atomicMinStored_eq]

theorem threadTag_eq (t : Nat) (ht : t < 32) : threadTag t = t * 2 ^ 27 := by
  have h : (sizeofUInt <<< 3) - 5 = 27 := by decide
  unfold threadTag u32
  rw [h, Nat.shiftLeft_eq]
  omega

theorem TAG_MASK_eq : TAG_MASK = 2 ^ 27 - 1 := by decide

theorem tag_lor (t c : Nat) (hc : c < 2 ^ 27) : t * 2 ^ 27 ||| c = t * 2 ^ 27 + c := by
  have h := Nat.mul_add_lt_is_or hc t
  rw [Nat.mul_comm (2 ^ 27) t] at h
  exact h.symm

/-- C8 as stated fails when the count is `2 ^ 27 - 1`: called by lane `0` on
the word `2 ^ 27 - 1`, `__atomicInc` leaves `2 ^ 27` (tag bits `1`, count bits
`0`) and returns `2 ^ 32 - 1`, not the previous count. -/
theorem atomicInc_count_overflow :
    __atomicInc 1 0 134217727 0 = some (134217728, 4294967295)
      ∧ 134217727 % 2 ^ 27 = 134217727
      ∧ ¬ (134217728 / 2 ^ 27 = 0)
      ∧ ¬ (134217728 % 2 ^ 27 = 134217727 % 2 ^ 27 + 1)
      ∧ ¬ (4294967295 = 134217727 % 2 ^ 27) := by
  refine ⟨?_, by norm_num, by norm_num, by norm_num, by norm_num⟩
  decide

/-- C8, amended. Run alone by lane `t < 32` on a 32-bit word `w` whose count
`w mod 2^27` is below `2^27 - 1`, `__atomicInc` returns the count before the
increment and leaves the word `t * 2^27 + (w mod 2^27 + 1)`: top five bits `t`,
low 27 bits the count plus one. -/
theorem atomicInc_uncontended (w t val fuel : Nat) (_hw : w < 2 ^ 32) (ht : t < 32)
    (hc : w % 2 ^ 27 + 1 < 2 ^ 27) :
    ∃ w1 : Nat, __atomicInc (fuel + 1) t w val = some (w1, w % 2 ^ 27)
      ∧ w1 < 2 ^ 32 ∧ w1 / 2 ^ 27 = t ∧ w1 % 2 ^ 27 = w % 2 ^ 27 + 1 := by
  have hmask : ∀ a : Nat, a &&& TAG_MASK = a % 2 ^ 27 := by
    intro a
    rw [TAG_MASK_eq]
    exact Nat.and_pow_two_sub_one_eq_mod a 27
  have hinc : u32 (w % 2 ^ 27 + 1) = w % 2 ^ 27 + 1 := by
    unfold u32
    exact Nat.mod_eq_of_lt (by omega)
  have hword : threadTag t ||| u32 (w % 2 ^ 27 + 1) = t * 2 ^ 27 + (w % 2 ^ 27 + 1) := by
    rw [hinc, threadTag_eq t ht, tag_lor _ _ hc]
  refine ⟨t * 2 ^ 27 + (w % 2 ^ 27 + 1), ?_, by omega, by omega, by omega⟩
  unfold __atomicInc atomicIncLoop
  simp only [hmask, hword, ne_eq, not_true_eq_false, if_false]
  have hret : u32 ((t * 2 ^ 27 + (w % 2 ^ 27 + 1)) % 2 ^ 27 + 2 ^ 32 - 1) = w % 2 ^ 27 := by
    unfold u32
    omega
  rw [hret]

theorem atomicInc_uncontended_witness :
    ∃ w1 : Nat, __atomicInc 1 3 1073741829 0 = some (w1, 1073741829 % 2 ^ 27)
      ∧ w1 < 2 ^ 32 ∧ w1 / 2 ^ 27 = 3 ∧ w1 % 2 ^ 27 = 1073741829 % 2 ^ 27 + 1 :=
  atomicInc_uncontended 1073741829 3 0 0 (by norm_num) (by norm_num) (by norm_num)

/-- When the two lanes advance in lockstep (both read, both store, both test,
and so on) the emulation does reach the minimum: both calls have returned after
five rounds and the address holds `min(v, a, b)`. -/
theorem minRace_lockstep (v a b : Int) :
    minRace v a b [false, true, false, true, false, true, false, true, false, true]
      = ⟨min v (min a b), .ret (min v a), .ret (min v b)⟩ := by
  simp only [minRace, List.foldl_cons, List.foldl_nil, MinPair.step, minStep, if_true,
    Bool.false_eq_true, if_false]
  by_cases h : min v b > min v a
  · have h1 : ¬ (min v a > min v a) := lt_irrefl _
    have h2 : ¬ (min v b > min v b) := lt_irrefl _
    have h3 : min v (min a b) = min v a := by
      rcases le_total v a with h4 | h4 <;> rcases le_total v b with h5 | h5 <;>
        rcases le_total a b with h6 | h6 <;>
        simp only [min_eq_left, min_eq_right, h4, h5, h6] at h ⊢ <;> omega
    simp [h, h3]
  · have h2 : ¬ (min v b > min v b) := lt_irrefl _
    have h3 : min v (min a b) = min v b := by
      rcases le_total v a with h4 | h4 <;> rcases le_total v b with h5 | h5 <;>
        rcases le_total a b with h6 | h6 <;>
        simp only [min_eq_left, min_eq_right, h4, h5, h6] at h ⊢ <;> omega
    simp [h, h3]

/-- C9. Two lanes call `__atomicMin` on an address holding `5`, with proposals
`1` and `3`; both read `5`, lane A stores `1` and returns, then lane B stores `3`
and returns: both calls have returned and the address holds `3`, not
`min(5, 1, 3) = 1`. -/
theorem atomicMin_lost_update :
    minRace 5 1 3 [false, true, false, false, true, true] = ⟨3, .ret 1, .ret 3⟩
      ∧ ¬ ((minRace 5 1 3 [false, true, false, false, true, true]).mem
            = min (5 : Int) (min 1 3)) := by
  decide

/-! ## The predicate -/

theorem iabs_sub_comm (m : IntMode) (a b : Int) :
    iabs m (m.norm (a - b)) = iabs m (m.norm (b - a)) := by
  cases m
  · simp only [iabs, IntMode.norm]
    split_ifs <;> omega
  · simp only [iabs, IntMode.norm, toInt32]
    split_ifs <;> omega

theorem iabs_corner_comm (m : IntMode) (a c b d : Int) :
    iabs m (m.norm (m.norm (m.norm (a + c) - b) - d))
      = iabs m (m.norm (m.norm (m.norm (b + d) - a) - c)) := by
  cases m
  · simp only [iabs, IntMode.norm]
    split_ifs <;> omega
  · simp only [iabs, IntMode.norm, toInt32]
    split_ifs <;> omega

theorem delta_comm {F : Type} (M : FloatModel F) (m : IntMode) (eps : F) (r1 r2 : Int4) :
    InSameComponint.delta M m eps r1 r2 = InSameComponint.delta M m eps r2 r1 := by
  unfold InSameComponint.delta
  rw [min_comm r1.z r2.z, min_comm r1.w r2.w]

theorem InSameComponint_comm {F : Type} (M : FloatModel F) (m : IntMode) (eps : F)
    (r1 r2 : Int4) :
    InSameComponint M m eps r1 r2 = InSameComponint M m eps r2 r1 := by
  unfold InSameComponint
  rw [delta_comm M m eps r1 r2, iabs_sub_comm m r1.x r2.x, iabs_sub_comm m r1.y r2.y,
    iabs_corner_comm m r1.x r1.z r2.x r2.z, iabs_corner_comm m r1.y r1.w r2.y r2.w]

/-- C5. `InSameComponint` is symmetric, whatever the floating-point operations
compute, for every `eps` and every two rectangles, with `int` arithmetic taken
exactly or modulo `2^32`. -/
theorem InSameComponint_symm {F : Type} (M : FloatModel F) (m : IntMode) (eps : F)
    (r1 r2 : Int4) :
    InSameComponint M m eps r1 r2 = InSameComponint M m eps r2 r1 := by
  have hdelta : InSameComponint.delta M m eps r1 r2 = InSameComponint.delta M m eps r2 r1 :=
    delta_comm M m eps r1 r2
  have hx := iabs_sub_comm m r1.x r2.x
  have hy := iabs_sub_comm m r1.y r2.y
  have hxz := iabs_corner_comm m r1.x r1.z r2.x r2.z
  have hyw := iabs_corner_comm m r1.y r1.w r2.y r2.w
  unfold InSameComponint
  rw [hdelta, hx, hy, hxz, hyw]

/-! ## `partition`: one step -/

theorem getD_set (l : List Int) (i j : Nat) (a : Int) :
    (l.set i a).getD j 0 = if i = j ∧ i < l.length then a else l.getD j 0 := by
  simp only [List.getD_eq_getElem?_getD, List.getElem?_set]
  by_cases hij : i = j
  · subst hij
    by_cases hi : i < l.length
    · simp [hi]
    · simp [hi, List.getElem?_eq_none (Nat.le_of_not_lt hi)]
  · simp [hij]

theorem partitionStep_length (e : Bool) (vec : List Int4) (pr : Int4 → Int4 → Bool)
    (t id : Nat) (l : List Int) : (partitionStep e vec pr t id l).length = l.length := by
  unfold partitionStep
  dsimp only
  split_ifs <;> simp

theorem partitionStep_of_not (e : Bool) (vec : List Int4) (pr : Int4 → Int4 → Bool)
    (t id : Nat) (l : List Int)
    (h : ¬ (t ≠ id ∧ pr (vec.getD t default) (vec.getD id default) = true)) :
    partitionStep e vec pr t id l = l := by
  unfold partitionStep
  rw [if_neg h]

theorem partitionStep_le (e : Bool) (vec : List Int4) (pr : Int4 → Int4 → Bool)
    (t id : Nat) (l : List Int) (i : Nat) :
    (partitionStep e vec pr t id l).getD i 0 ≤ l.getD i 0 := by
  unfold partitionStep
  simp only [atomicMinStored_eq]
  split_ifs with h1 h2 h3
  · rw [getD_set]
    split_ifs with h4
    · rw [← h4.1]
      exact min_le_left _ _
    · exact le_refl _
  · rw [getD_set]
    split_ifs with h4
    · rw [← h4.1]
      exact min_le_left _ _
    · exact le_refl _
  · exact le_refl _
  · exact le_refl _

/-- Where a step changes a label, the new value is the label of the partner
across a predicate-satisfying pair, and it is smaller than the old one. -/
theorem partitionStep_copy (e : Bool) (vec : List Int4) (pr : Int4 → Int4 → Bool)
    (t id : Nat) (l : List Int) (i : Nat) :
    (partitionStep e vec pr t id l).getD i 0 = l.getD i 0
      ∨ (pr (vec.getD t default) (vec.getD id default) = true
          ∧ ((i = id ∧ (partitionStep e vec pr t id l).getD i 0 = l.getD t 0
                ∧ l.getD t 0 < l.getD id 0)
            ∨ (i = t ∧ (partitionStep e vec pr t id l).getD i 0 = l.getD id 0
                ∧ l.getD id 0 < l.getD t 0))) := by
  unfold partitionStep
  simp only [atomicMinStored_eq]
  split_ifs with h1 h2 h3
  · rw [getD_set]
    split_ifs with h4
    · right
      refine ⟨h1.2, Or.inl ⟨h4.1.symm, ?_, h2⟩⟩
      exact min_eq_right (le_of_lt h2)
    · exact Or.inl rfl
  · rw [getD_set]
    split_ifs with h4
    · right
      refine ⟨h1.2, Or.inr ⟨h4.1.symm, ?_, h3⟩⟩
      exact min_eq_right (le_of_lt h3)
    · exact Or.inl rfl
  · exact Or.inl rfl
  · exact Or.inl rfl

/-- After lane `t` has compared with a partner `id`, both labels are at most the
smaller of the two labels read. -/
theorem partitionStep_meet (e : Bool) (vec : List Int4) (pr : Int4 → Int4 → Bool)
    (t id : Nat) (l : List Int) (hne : t ≠ id)
    (hp : pr (vec.getD t default) (vec.getD id default) = true)
    (ht : t < l.length) (hid : id < l.length) :
    (partitionStep e vec pr t id l).getD t 0 ≤ l.getD id 0
      ∧ (partitionStep e vec pr t id l).getD id 0 ≤ l.getD t 0 := by
  unfold partitionStep
  simp only [atomicMinStored_eq]
  rw [if_pos ⟨hne, hp⟩]
  split_ifs with h2 h3
  · rw [getD_set, getD_set, if_neg (fun h => hne h.1.symm), if_pos ⟨rfl, hid⟩]
    exact ⟨le_of_lt h2, min_le_right _ _⟩
  · rw [getD_set, getD_set, if_pos ⟨rfl, ht⟩, if_neg (fun h => hne h.1)]
    exact ⟨min_le_right _ _, le_of_lt h3⟩
  · constructor <;> omega

/-! ## `partition`: runs -/

theorem run_induction (e : Bool) (vec : List Int4) (n : Nat) (pr : Int4 → Int4 → Bool)
    (P : Block → Prop) (hstep : ∀ s t, P s → P (Block.step e vec n pr s t)) :
    ∀ (sched : List Nat) (s : Block), P s → P (sched.foldl (Block.step e vec n pr) s) := by
  intro sched
  induction sched with
  | nil => intro s hs; exact hs
  | cons a rest ih => intro s hs; exact ih _ (hstep s a hs)

theorem step_labels_le (e : Bool) (vec : List Int4) (n : Nat) (pr : Int4 → Int4 → Bool)
    (s : Block) (t i : Nat) :
    (Block.step e vec n pr s t).labels.getD i 0 ≤ s.labels.getD i 0 := by
  unfold Block.step
  split_ifs
  · exact partitionStep_le e vec pr t (s.next t) s.labels i
  · exact le_refl _

theorem step_length (e : Bool) (vec : List Int4) (n : Nat) (pr : Int4 → Int4 → Bool)
    (s : Block) (t : Nat) :
    (Block.step e vec n pr s t).labels.length = s.labels.length := by
  unfold Block.step
  split_ifs
  · exact partitionStep_length e vec pr t (s.next t) s.labels
  · rfl

theorem step_next (e : Bool) (vec : List Int4) (n : Nat) (pr : Int4 → Int4 → Bool)
    (s : Block) (t u : Nat) :
    (Block.step e vec n pr s t).next u
      = if u = t ∧ t < n ∧ s.next t < n then s.next t + 1 else s.next u := by
  unfold Block.step
  by_cases h : t < n ∧ s.next t < n
  · rw [if_pos h]
    by_cases hu : u = t
    · subst hu
      simp [h]
    · simp [hu, Function.update_noteq hu]
  · rw [if_neg h]
    have : ¬ (u = t ∧ t < n ∧ s.next t < n) := fun h1 => h h1.2
    rw [if_neg this]

theorem run_length (e : Bool) (vec : List Int4) (n : Nat) (pr : Int4 → Int4 → Bool)
    (sched : List Nat) (s : Block) :
    (sched.foldl (Block.step e vec n pr) s).labels.length = s.labels.length := by
  induction sched generalizing s with
  | nil => rfl
  | cons a rest ih =>
    rw [List.foldl_cons, ih, step_length]

theorem run_labels_le (e : Bool) (vec : List Int4) (n : Nat) (pr : Int4 → Int4 → Bool)
    (sched : List Nat) (s : Block) (i : Nat) :
    (sched.foldl (Block.step e vec n pr) s).labels.getD i 0 ≤ s.labels.getD i 0 := by
  induction sched generalizing s with
  | nil => exact le_refl _
  | cons a rest ih =>
    rw [List.foldl_cons]
    exact le_trans (ih _) (step_labels_le e vec n pr s a i)

theorem run_next (e : Bool) (vec : List Int4) (n : Nat) (pr : Int4 → Int4 → Bool)
    (sched : List Nat) (s : Block) (t : Nat) (ht : t < n) (hs : s.next t ≤ n) :
    (sched.foldl (Block.step e vec n pr) s).next t = min n (s.next t + sched.count t) := by
  induction sched generalizing s with
  | nil => simp [hs]
  | cons a rest ih =>
    rw [List.foldl_cons, ih]
    · rw [step_next, List.count_cons]
      by_cases ha : a = t
      · subst ha
        by_cases hlt : s.next a < n
        · simp [ht, hlt]
          omega
        · simp [ht, hlt]
          omega
      · have h1 : ¬ (t = a ∧ a < n ∧ s.next a < n) := fun h => ha h.1.symm
        simp [h1, ha]
    · rw [step_next]
      split_ifs with h
      · omega
      · exact hs

/-! ### Initialisation -/

theorem initLabels_length (n : Nat) (l : List Int) : (initLabels n l).length = l.length := by
  unfold initLabels
  induction n with
  | zero => simp
  | succ k ih => rw [List.range_succ, List.foldl_append]; simpa using ih

theorem initLabels_getD (n : Nat) (l : List Int) (i : Nat) :
    (initLabels n l).getD i 0 = if i < n ∧ i < l.length then (i : Int) else l.getD i 0 := by
  induction n with
  | zero => simp [initLabels]
  | succ k ih =>
    have hlen := initLabels_length k l
    unfold initLabels at ih hlen ⊢
    rw [List.range_succ, List.foldl_append]
    simp only [List.foldl_cons, List.foldl_nil]
    rw [getD_set, hlen, ih]
    by_cases hki : k = i
    · subst hki
      by_cases hk : k < l.length
      · simp [hk]
      · simp [hk]
    · by_cases hik : i < k
      · have : i < k + 1 := by omega
        simp [hki, hik, this]
      · have : ¬ i < k + 1 := by omega
        simp [hki, hik, this]

/-! ### Connectivity -/

theorem Conn.symm {vec : List Int4} {n : Nat} {pr : Int4 → Int4 → Bool}
    (hsym : ∀ a b, pr a b = pr b a) {i j : Nat} (h : Conn vec n pr i j) :
    Conn vec n pr j i := by
  unfold Conn at h ⊢
  induction h with
  | refl => exact Relation.ReflTransGen.refl
  | tail _ hbc ih =>
    refine Relation.ReflTransGen.head ?_ ih
    exact ⟨hbc.2.1, hbc.1, by rw [hsym]; exact hbc.2.2⟩

theorem Conn.of_isolated {vec : List Int4} {n : Nat} {pr : Int4 → Int4 → Bool} {i j : Nat}
    (hiso : ∀ x, Edge vec n pr i x → x = i) (h : Conn vec n pr i j) : j = i := by
  unfold Conn at h
  induction h with
  | refl => rfl
  | tail _ hbc ih =>
    subst ih
    exact hiso _ hbc

/-! ### Invariants -/

theorem sound_init (vec : List Int4) (n : Nat) (pr : Int4 → Int4 → Bool) (l : List Int)
    (hlen : n ≤ l.length) : Sound vec n pr (initLabels n l) := by
  intro i hi
  refine ⟨i, ?_, le_refl _, Relation.ReflTransGen.refl⟩
  rw [initLabels_getD, if_pos ⟨hi, by omega⟩]

theorem sound_partitionStep (e : Bool) (vec : List Int4) (n : Nat) (pr : Int4 → Int4 → Bool)
    (hsym : ∀ a b, pr a b = pr b a) (t id : Nat) (ht : t < n) (hid : id < n) (l : List Int)
    (h : Sound vec n pr l) : Sound vec n pr (partitionStep e vec pr t id l) := by
  intro i hi
  obtain ⟨mi, hmi, hmi_le, hci⟩ := h i hi
  obtain ⟨mt, hmt, hmt_le, hct⟩ := h t ht
  obtain ⟨md, hmd, hmd_le, hcd⟩ := h id hid
  rcases partitionStep_copy e vec pr t id l i with heq | ⟨hp, ⟨hi1, hnew, hlt⟩ | ⟨hi1, hnew, hlt⟩⟩
  · exact ⟨mi, by rw [heq, hmi], hmi_le, hci⟩
  · subst hi1
    refine ⟨mt, by rw [hnew, hmt], by omega, ?_⟩
    refine Relation.ReflTransGen.head ?_ hct
    exact ⟨hi, ht, by rw [hsym]; exact hp⟩
  · subst hi1
    refine ⟨md, by rw [hnew, hmd], by omega, ?_⟩
    exact Relation.ReflTransGen.head ⟨hi, hid, hp⟩ hcd

theorem sound_step (e : Bool) (vec : List Int4) (n : Nat) (pr : Int4 → Int4 → Bool)
    (hsym : ∀ a b, pr a b = pr b a) (s : Block) (t : Nat)
    (h : Sound vec n pr s.labels) : Sound vec n pr (Block.step e vec n pr s t).labels := by
  unfold Block.step
  split_ifs with hc
  · exact sound_partitionStep e vec n pr hsym t (s.next t) hc.1 hc.2 s.labels h
  · exact h

theorem sound_run (e : Bool) (vec : List Int4) (n : Nat) (l : List Int)
    (pr : Int4 → Int4 → Bool) (hsym : ∀ a b, pr a b = pr b a) (hlen : n ≤ l.length)
    (sched : List Nat) : Sound vec n pr (partition e vec n l pr sched) := by
  unfold partition partitionRun
  exact run_induction e vec n pr (fun s => Sound vec n pr s.labels)
    (fun s t hs => sound_step e vec n pr hsym s t hs) sched _ (sound_init vec n pr l hlen)

theorem bound_init (vec : List Int4) (n : Nat) (pr : Int4 → Int4 → Bool) (l : List Int)
    (hlen : n ≤ l.length) : Bound vec n pr ⟨initLabels n l, fun _ => 0⟩ := by
  refine ⟨by rw [initLabels_length]; exact hlen, fun _ => Nat.zero_le _, ?_, ?_, ?_⟩
  · intro i hi
    rw [initLabels_getD, if_pos ⟨hi, by omega⟩]
  · intro t j _ hj
    exact absurd hj (Nat.not_lt_zero _)
  · intro t j1 j2 _ _ hj
    exact absurd hj (Nat.not_lt_zero _)

theorem bound_step (e : Bool) (vec : List Int4) (n : Nat) (pr : Int4 → Int4 → Bool)
    (s : Block) (t0 : Nat) (h : Bound vec n pr s) : Bound vec n pr (Block.step e vec n pr s t0) := by
  obtain ⟨hlen, hnext, hle, hB1, hB2⟩ := h
  have hmono := step_labels_le e vec n pr s t0
  refine ⟨by rw [step_length]; exact hlen, ?_, ?_, ?_, ?_⟩
  · intro t
    rw [step_next]
    split_ifs with hc
    · omega
    · exact hnext t
  · intro i hi
    exact le_trans (hmono i) (hle i hi)
  · intro t j ht hj hne hp
    rw [step_next] at hj
    by_cases hc : t = t0 ∧ t0 < n ∧ s.next t0 < n
    · rw [if_pos hc] at hj
      obtain ⟨rfl, -, hlt⟩ := hc
      by_cases hjn : j = s.next t
      · subst hjn
        have hstep : (Block.step e vec n pr s t).labels
            = partitionStep e vec pr t (s.next t) s.labels := by
          unfold Block.step
          rw [if_pos ⟨ht, hlt⟩]
        rw [hstep]
        have hm := partitionStep_meet e vec pr t (s.next t) s.labels hne hp
          (by omega) (by omega)
        exact le_trans hm.1 (hle _ hlt)
      · exact le_trans (hmono t) (hB1 t j ht (by omega) hne hp)
    · rw [if_neg hc] at hj
      exact le_trans (hmono t) (hB1 t j ht hj hne hp)
  · intro t j1 j2 ht hj12 hj hne1 hne2 hp1 hp2
    rw [step_next] at hj
    by_cases hc : t = t0 ∧ t0 < n ∧ s.next t0 < n
    · rw [if_pos hc] at hj
      obtain ⟨rfl, -, hlt⟩ := hc
      by_cases hjn : j2 = s.next t
      · subst hjn
        have hstep : (Block.step e vec n pr s t).labels
            = partitionStep e vec pr t (s.next t) s.labels := by
          unfold Block.step
          rw [if_pos ⟨ht, hlt⟩]
        rw [hstep]
        have hm := partitionStep_meet e vec pr t (s.next t) s.labels hne2 hp2
          (by omega) (by omega)
        exact le_trans hm.2 (hB1 t j1 ht hj12 hne1 hp1)
      · exact le_trans (hmono j2) (hB2 t j1 j2 ht hj12 (by omega) hne1 hne2 hp1 hp2)
    · rw [if_neg hc] at hj
      exact le_trans (hmono j2) (hB2 t j1 j2 ht hj12 hj hne1 hne2 hp1 hp2)

theorem bound_run (e : Bool) (vec : List Int4) (n : Nat) (l : List Int)
    (pr : Int4 → Int4 → Bool) (hlen : n ≤ l.length) (sched : List Nat) :
    Bound vec n pr (partitionRun e vec n l pr sched) := by
  unfold partitionRun
  exact run_induction e vec n pr (Bound vec n pr)
    (fun s t hs => bound_step e vec n pr s t hs) sched _ (bound_init vec n pr l hlen)

theorem next_final (e : Bool) (vec : List Int4) (n : Nat) (l : List Int)
    (pr : Int4 → Int4 → Bool) (sched : List Nat) (hs : IsSchedule n sched) (t : Nat)
    (ht : t < n) : (partitionRun e vec n l pr sched).next t = n := by
  unfold partitionRun
  rw [run_next e vec n pr sched _ t ht (Nat.zero_le _), hs.2 t ht]
  simp

/-- After a complete interleaving, the label of `i` is at most every index `j`
whose rectangle satisfies the predicate with rectangle `i`. -/
theorem final_le_neighbour (e : Bool) (vec : List Int4) (n : Nat) (l : List Int)
    (pr : Int4 → Int4 → Bool) (hlen : n ≤ l.length) (sched : List Nat)
    (hs : IsSchedule n sched) (i j : Nat) (hi : i < n) (hj : j < n) (hne : i ≠ j)
    (hp : pr (vec.getD i default) (vec.getD j default) = true) :
    (partition e vec n l pr sched).getD i 0 ≤ (j : Int) := by
  have hb := bound_run e vec n l pr hlen sched
  have hn := next_final e vec n l pr sched hs i hi
  exact hb.2.2.2.1 i j hi (by omega) hne hp

/-- After a complete interleaving, of two partners `j1 < j2` of one lane `t` the
later one has a label at most `j1`. -/
theorem final_le_sibling (e : Bool) (vec : List Int4) (n : Nat) (l : List Int)
    (pr : Int4 → Int4 → Bool) (hlen : n ≤ l.length) (sched : List Nat)
    (hs : IsSchedule n sched) (t j1 j2 : Nat) (ht : t < n) (hj : j1 < j2) (hj2 : j2 < n)
    (hne1 : t ≠ j1) (hne2 : t ≠ j2)
    (hp1 : pr (vec.getD t default) (vec.getD j1 default) = true)
    (hp2 : pr (vec.getD t default) (vec.getD j2 default) = true) :
    (partition e vec n l pr sched).getD j2 0 ≤ (j1 : Int) := by
  have hb := bound_run e vec n l pr hlen sched
  have hn := next_final e vec n l pr sched hs t ht
  exact hb.2.2.2.2 t j1 j2 ht hj (by omega) hne1 hne2 hp1 hp2

theorem Conn.avoid {vec : List Int4} {n : Nat} {pr : Int4 → Int4 → Bool} {i j z : Nat}
    (hz : ∀ x, x ≠ z → ¬ Edge vec n pr x z) (hi : i ≠ z) (h : Conn vec n pr i j) : j ≠ z := by
  unfold Conn at h
  induction h with
  | refl => exact hi
  | tail _ hbc ih =>
    intro hcz
    subst hcz
    exact hz _ ih hbc

/-- With at most three rectangles, a complete interleaving leaves equal labels
on the two sides of every predicate-satisfying pair `i < j`. -/
theorem final_edge_eq_lt (e : Bool) (vec : List Int4) (n : Nat) (l : List Int)
    (pr : Int4 → Int4 → Bool) (hsym : ∀ a b, pr a b = pr b a) (hlen : n ≤ l.length)
    (sched : List Nat) (hs : IsSchedule n sched) (hn : n ≤ 3) (i j : Nat) (hij : i < j)
    (hj : j < n) (hp : pr (vec.getD i default) (vec.getD j default) = true) :
    (partition e vec n l pr sched).getD i 0 = (partition e vec n l pr sched).getD j 0 := by
  have hS := sound_run e vec n l pr hsym hlen sched
  have hB1 := final_le_neighbour e vec n l pr hlen sched hs
  have hB2 := final_le_sibling e vec n l pr hlen sched hs
  have hp1 : pr (vec.getD j default) (vec.getD i default) = true := by rw [hsym]; exact hp
  obtain ⟨mi, hmi, hmi_le, hci⟩ := hS i (by omega)
  obtain ⟨mj, hmj, hmj_le, hcj⟩ := hS j hj
  have hji := hB1 j i hj (by omega) (by omega) hp1
  by_cases hi0 : i = 0
  · subst hi0
    omega
  · have hi1 : i = 1 := by omega
    have hj2 : j = 2 := by omega
    subst hi1 hj2
    by_cases h01 : pr (vec.getD 0 default) (vec.getD 1 default) = true
    · have h10 : pr (vec.getD 1 default) (vec.getD 0 default) = true := by rw [hsym]; exact h01
      have a1 := hB1 1 0 (by omega) (by omega) (by omega) h10
      have a2 := hB2 1 0 2 (by omega) (by omega) hj (by omega) (by omega) h10 hp
      omega
    · by_cases h02 : pr (vec.getD 0 default) (vec.getD 2 default) = true
      · have h20 : pr (vec.getD 2 default) (vec.getD 0 default) = true := by
          rw [hsym]; exact h02
        have a1 := hB1 2 0 hj (by omega) (by omega) h20
        have a2 := hB2 2 0 1 hj (by omega) (by omega) (by omega) (by omega) h20 hp1
        omega
      · have hz : ∀ x, x ≠ 0 → ¬ Edge vec n pr x 0 := by
          intro x hx hedge
          have hx3 : x < 3 := lt_of_lt_of_le hedge.1 hn
          have hpx := hedge.2.2
          rw [hsym] at hpx
          have hx12 : x = 1 ∨ x = 2 := by omega
          rcases hx12 with rfl | rfl
          · exact h01 hpx
          · exact h02 hpx
        have b1 := Conn.avoid hz (by omega) hci
        have b2 := Conn.avoid hz (by omega) hcj
        omega

theorem final_edge_eq (e : Bool) (vec : List Int4) (n : Nat) (l : List Int)
    (pr : Int4 → Int4 → Bool) (hsym : ∀ a b, pr a b = pr b a) (hlen : n ≤ l.length)
    (sched : List Nat) (hs : IsSchedule n sched) (hn : n ≤ 3) (i j : Nat)
    (hedge : Edge vec n pr i j) :
    (partition e vec n l pr sched).getD i 0 = (partition e vec n l pr sched).getD j 0 := by
  rcases Nat.lt_trichotomy i j with h | h | h
  · exact final_edge_eq_lt e vec n l pr hsym hlen sched hs hn i j h hedge.2.1 hedge.2.2
  · rw [h]
  · have hp := hedge.2.2
    rw [hsym] at hp
    exact (final_edge_eq_lt e vec n l pr hsym hlen sched hs hn j i h hedge.1 hp).symm

theorem final_conn_eq (e : Bool) (vec : List Int4) (n : Nat) (l : List Int)
    (pr : Int4 → Int4 → Bool) (hsym : ∀ a b, pr a b = pr b a) (hlen : n ≤ l.length)
    (sched : List Nat) (hs : IsSchedule n sched) (hn : n ≤ 3) (i j : Nat)
    (hc : Conn vec n pr i j) :
    (partition e vec n l pr sched).getD i 0 = (partition e vec n l pr sched).getD j 0 := by
  unfold Conn at hc
  induction hc with
  | refl => rfl
  | tail _ hbc ih =>
    rw [ih]
    exact final_edge_eq e vec n l pr hsym hlen sched hs hn _ _ hbc

theorem Conn.lt_of_lt {vec : List Int4} {n : Nat} {pr : Int4 → Int4 → Bool} {i j : Nat}
    (hi : i < n) (h : Conn vec n pr i j) : j < n := by
  unfold Conn at h
  induction h with
  | refl => exact hi
  | tail _ hbc _ => exact hbc.2.1

theorem partition_length (e : Bool) (vec : List Int4) (n : Nat) (l : List Int)
    (pr : Int4 → Int4 → Bool) (sched : List Nat) :
    (partition e vec n l pr sched).length = l.length := by
  unfold partition partitionRun
  rw [run_length, initLabels_length]

theorem take_three (l : List Int) (a b c : Int) (hlen : 3 ≤ l.length)
    (h0 : l.getD 0 0 = a) (h1 : l.getD 1 0 = b) (h2 : l.getD 2 0 = c) :
    l.take 3 = [a, b, c] := by
  match l, hlen with
  | x :: y :: z :: rest, _ =>
    simp only [List.getD_cons_zero, List.getD_cons_succ] at h0 h1 h2
    simp [h0, h1, h2]

/-! ### Dependence on the predicate -/

theorem partitionStep_congr (e : Bool) (vec : List Int4) (pr1 pr2 : Int4 → Int4 → Bool)
    (t id : Nat) (l : List Int)
    (h : pr1 (vec.getD t default) (vec.getD id default)
      = pr2 (vec.getD t default) (vec.getD id default)) :
    partitionStep e vec pr1 t id l = partitionStep e vec pr2 t id l := by
  unfold partitionStep
  rw [h]

theorem step_congr (e : Bool) (vec : List Int4) (n : Nat) (pr1 pr2 : Int4 → Int4 → Bool)
    (h : ∀ i j, i < n → j < n →
      pr1 (vec.getD i default) (vec.getD j default) = pr2 (vec.getD i default) (vec.getD j default))
    (s : Block) (t : Nat) : Block.step e vec n pr1 s t = Block.step e vec n pr2 s t := by
  unfold Block.step
  split_ifs with hc
  · rw [partitionStep_congr e vec pr1 pr2 t (s.next t) s.labels (h _ _ hc.1 hc.2)]
  · rfl

theorem partition_congr (e : Bool) (vec : List Int4) (n : Nat) (l : List Int)
    (pr1 pr2 : Int4 → Int4 → Bool)
    (h : ∀ i j, i < n → j < n →
      pr1 (vec.getD i default) (vec.getD j default) = pr2 (vec.getD i default) (vec.getD j default))
    (sched : List Nat) : partition e vec n l pr1 sched = partition e vec n l pr2 sched := by
  unfold partition partitionRun
  have hstep : Block.step e vec n pr1 = Block.step e vec n pr2 := by
    funext s t
    exact step_congr e vec n pr1 pr2 h s t
  rw [hstep]

theorem chain4_pred (i j : Nat) (hi : i < 4) (hj : j < 4) :
    InSameComponint ratModel .exact (1 / 2) (chain4.getD i default) (chain4.getD j default)
      = near5 (chain4.getD i default) (chain4.getD j default) := by
  interval_cases i <;> interval_cases j <;>
    norm_num [chain4, near5, InSameComponint, InSameComponint.delta, ratModel, iabs,
      IntMode.norm]

/-! ## Properties of `partition` -/

/-- C1 as stated fails for four rectangles. On `chain4` with `eps = 1/2` the
predicate is symmetric and links `1 - 2 - 3 - 0`, so index `0` is connected to
index `1`; yet both when the lanes run one after the other and when they advance
in lockstep, `partition` ends with `labels = [0, 1, 0, 0]`: the label of
rectangle `1` is `1`, not the smallest index of its component. -/
theorem partition_chain4_not_component_min :
    chain4.length = 4
      ∧ (∀ a b, InSameComponint ratModel .exact (1 / 2) a b
          = InSameComponint ratModel .exact (1 / 2) b a)
      ∧ IsSchedule 4 (sequentialSchedule 4) ∧ IsSchedule 4 (lockstepSchedule 4)
      ∧ partition true chain4 4 [0, 0, 0, 0] (InSameComponint ratModel .exact (1 / 2))
          (sequentialSchedule 4) = [0, 1, 0, 0]
      ∧ partition true chain4 4 [0, 0, 0, 0] (InSameComponint ratModel .exact (1 / 2))
          (lockstepSchedule 4) = [0, 1, 0, 0]
      ∧ Conn chain4 4 (InSameComponint ratModel .exact (1 / 2)) 1 0
      ∧ ¬ IsComponentMin chain4 4 (InSameComponint ratModel .exact (1 / 2)) 1
          ((partition true chain4 4 [0, 0, 0, 0] (InSameComponint ratModel .exact (1 / 2))
            (sequentialSchedule 4)).getD 1 0) := by
  have hseq : partition true chain4 4 [0, 0, 0, 0] (InSameComponint ratModel .exact (1 / 2))
      (sequentialSchedule 4) = [0, 1, 0, 0] := by
    rw [partition_congr true chain4 4 [0, 0, 0, 0] _ near5 chain4_pred]
    decide
  have hlock : partition true chain4 4 [0, 0, 0, 0] (InSameComponint ratModel .exact (1 / 2))
      (lockstepSchedule 4) = [0, 1, 0, 0] := by
    rw [partition_congr true chain4 4 [0, 0, 0, 0] _ near5 chain4_pred]
    decide
  have hedge : ∀ i j, i < 4 → j < 4 → near5 (chain4.getD i default) (chain4.getD j default) = true →
      Edge chain4 4 (InSameComponint ratModel .exact (1 / 2)) i j := by
    intro i j hi hj h
    exact ⟨hi, hj, by rw [chain4_pred i j hi hj]; exact h⟩
  have hconn : Conn chain4 4 (InSameComponint ratModel .exact (1 / 2)) 1 0 := by
    unfold Conn
    refine Relation.ReflTransGen.head (hedge 1 2 (by decide) (by decide) (by decide)) ?_
    refine Relation.ReflTransGen.head (hedge 2 3 (by decide) (by decide) (by decide)) ?_
    exact Relation.ReflTransGen.single (hedge 3 0 (by decide) (by decide) (by decide))
  refine ⟨rfl, fun a b => InSameComponint_comm _ _ _ a b, by decide, by decide, hseq, hlock,
    hconn, ?_⟩
  rw [hseq]
  rintro ⟨m, hm, -, hmin⟩
  have h0 := hmin 0 hconn
  have h1 : ([0, 1, 0, 0] : List Int).getD 1 0 = 1 := by decide
  rw [h1] at hm
  omega

/-- C1, amended. After `partition` has run on `n` rectangles with a symmetric
predicate, under every complete interleaving, `labels[i]` is the index `m` of a
rectangle connected to `i`, with `m <= i`, `m <= j` for every `j` whose rectangle
satisfies the predicate with rectangle `i`, and `m <= j` for every `j` that is
reached from `i` through two predicate-satisfying pairs `i - t - j`; so
`labels[i]` is the smallest index of the component of `i` whenever that index is
`i` itself, satisfies the predicate with `i` directly, or shares a partner `t`
with `i`, for every `n`, and in every case when `n <= 3`. -/
theorem partition_labels (e : Bool) (vec : List Int4) (n : Nat) (labels : List Int)
    (predicate : Int4 → Int4 → Bool) (sched : List Nat) (_hvec : vec.length = n)
    (hsym : ∀ a b, predicate a b = predicate b a) (hlen : n ≤ labels.length)
    (hs : IsSchedule n sched) (i : Nat) (hi : i < n) :
    (∃ m : Nat, (partition e vec n labels predicate sched).getD i 0 = (m : Int)
        ∧ m ≤ i ∧ Conn vec n predicate i m
        ∧ (∀ j, j < n → j ≠ i →
            predicate (vec.getD i default) (vec.getD j default) = true → m ≤ j)
        ∧ (∀ t j, t < n → j < n →
            predicate (vec.getD i default) (vec.getD t default) = true →
            predicate (vec.getD t default) (vec.getD j default) = true → m ≤ j))
      ∧ (∀ c, Conn vec n predicate i c → (∀ j, Conn vec n predicate i j → c ≤ j) →
          (c = i ∨ predicate (vec.getD i default) (vec.getD c default) = true
            ∨ ∃ t, t < n ∧ predicate (vec.getD i default) (vec.getD t default) = true
                ∧ predicate (vec.getD t default) (vec.getD c default) = true) →
          (partition e vec n labels predicate sched).getD i 0 = (c : Int))
      ∧ (n ≤ 3 →
          IsComponentMin vec n predicate i
            ((partition e vec n labels predicate sched).getD i 0)) := by
  have hS := sound_run e vec n labels predicate hsym hlen sched
  obtain ⟨m, hm, hm_le, hcm⟩ := hS i hi
  have hB : ∀ j, j < n → j ≠ i →
      predicate (vec.getD i default) (vec.getD j default) = true → m ≤ j := by
    intro j hj hne hp
    have h := final_le_neighbour e vec n labels predicate hlen sched hs i j hi hj
      (fun h => hne h.symm) hp
    omega
  have hB2 : ∀ t j, t < n → j < n →
      predicate (vec.getD i default) (vec.getD t default) = true →
      predicate (vec.getD t default) (vec.getD j default) = true → m ≤ j := by
    intro t j ht hj hp1 hp2
    by_cases hji : i ≤ j
    · exact le_trans hm_le hji
    · have hjlt : j < i := by omega
      by_cases htj : t = j
      · rw [htj] at hp1
        exact hB j hj (by omega) hp1
      · by_cases hti : t = i
        · rw [hti] at hp2
          exact hB j hj (by omega) hp2
        · have hpti : predicate (vec.getD t default) (vec.getD i default) = true := by
            rw [hsym]; exact hp1
          have h := final_le_sibling e vec n labels predicate hlen sched hs t j i ht hjlt hi
            htj hti hp2 hpti
          omega
  refine ⟨⟨m, hm, hm_le, hcm, hB, hB2⟩, ?_, ?_⟩
  · intro c hc hmin hadj
    have h1 : c ≤ m := hmin m hcm
    have hcn : c < n := Conn.lt_of_lt hi hc
    have h2 : m ≤ c := by
      rcases hadj with rfl | hp | ⟨t, ht, hp1, hp2⟩
      · exact hm_le
      · by_cases hci : c = i
        · rw [hci]; exact hm_le
        · exact hB c hcn hci hp
      · exact hB2 t c ht hcn hp1 hp2
    rw [hm]
    have : m = c := le_antisymm h2 h1
    rw [this]
  · intro hn
    refine ⟨m, hm, hcm, ?_⟩
    intro j hcj
    have heq := final_conn_eq e vec n labels predicate hsym hlen sched hs hn i j hcj
    obtain ⟨mj, hmj, hmj_le, -⟩ := hS j (Conn.lt_of_lt hi hcj)
    omega

theorem partition_labels_witness :
    IsSchedule 4 (lockstepSchedule 4)
      ∧ ((∃ m : Nat, (partition false chain4 4 [7, 7, 7, 7, 7]
            (InSameComponint ratModel .exact (1 / 2)) (lockstepSchedule 4)).getD 2 0 = (m : Int)
          ∧ m ≤ 2 ∧ Conn chain4 4 (InSameComponint ratModel .exact (1 / 2)) 2 m
          ∧ (∀ j, j < 4 → j ≠ 2 →
              InSameComponint ratModel .exact (1 / 2) (chain4.getD 2 default)
                (chain4.getD j default) = true → m ≤ j)
          ∧ (∀ t j, t < 4 → j < 4 →
              InSameComponint ratModel .exact (1 / 2) (chain4.getD 2 default)
                (chain4.getD t default) = true →
              InSameComponint ratModel .exact (1 / 2) (chain4.getD t default)
                (chain4.getD j default) = true → m ≤ j))
        ∧ (∀ c, Conn chain4 4 (InSameComponint ratModel .exact (1 / 2)) 2 c →
            (∀ j, Conn chain4 4 (InSameComponint ratModel .exact (1 / 2)) 2 j → c ≤ j) →
            (c = 2 ∨ InSameComponint ratModel .exact (1 / 2) (chain4.getD 2 default)
                (chain4.getD c default) = true
              ∨ ∃ t, t < 4 ∧ InSameComponint ratModel .exact (1 / 2) (chain4.getD 2 default)
                    (chain4.getD t default) = true
                  ∧ InSameComponint ratModel .exact (1 / 2) (chain4.getD t default)
                    (chain4.getD c default) = true) →
            (partition false chain4 4 [7, 7, 7, 7, 7] (InSameComponint ratModel .exact (1 / 2))
              (lockstepSchedule 4)).getD 2 0 = (c : Int))
        ∧ (4 ≤ 3 →
            IsComponentMin chain4 4 (InSameComponint ratModel .exact (1 / 2)) 2
              ((partition false chain4 4 [7, 7, 7, 7, 7]
                (InSameComponint ratModel .exact (1 / 2)) (lockstepSchedule 4)).getD 2 0))) :=
  ⟨by decide,
    partition_labels false chain4 4 [7, 7, 7, 7, 7] (InSameComponint ratModel .exact (1 / 2))
      (lockstepSchedule 4) rfl (fun a b => InSameComponint_comm _ _ _ a b) (by decide)
      (by decide) 2 (by decide)⟩

/-- C2. Three rectangles forming a chain under a symmetric predicate (the
middle one, at index `mid`, satisfies the predicate with the two ends `a` and
`b`, which do not satisfy it with each other): whichever index the middle one
has and however the steps of the three lanes are interleaved, `partition` with
`n = 3` ends with `labels = [0, 0, 0]`. -/
theorem partition_chain3 (e : Bool) (vec : List Int4) (labels : List Int)
    (predicate : Int4 → Int4 → Bool) (sched : List Nat) (_hvec : vec.length = 3)
    (hsym : ∀ r1 r2, predicate r1 r2 = predicate r2 r1) (hlen : 3 ≤ labels.length)
    (hs : IsSchedule 3 sched) (mid a b : Nat) (hmid : mid < 3) (ha : a < 3) (hb : b < 3)
    (hma : mid ≠ a) (hmb : mid ≠ b) (hab : a ≠ b)
    (h1 : predicate (vec.getD mid default) (vec.getD a default) = true)
    (h2 : predicate (vec.getD mid default) (vec.getD b default) = true)
    (_h3 : predicate (vec.getD a default) (vec.getD b default) = false) :
    (partition e vec 3 labels predicate sched).take 3 = [0, 0, 0] := by
  have hS := sound_run e vec 3 labels predicate hsym hlen sched
  have e1 := final_edge_eq e vec 3 labels predicate hsym hlen sched hs (le_refl _) mid a
    ⟨hmid, ha, h1⟩
  have e2 := final_edge_eq e vec 3 labels predicate hsym hlen sched hs (le_refl _) mid b
    ⟨hmid, hb, h2⟩
  obtain ⟨m0, hm0, hm0_le, -⟩ := hS 0 (by omega)
  have hz : (partition e vec 3 labels predicate sched).getD 0 0 = 0 := by
    rw [hm0]; omega
  have hall : ∀ k, k < 3 → (partition e vec 3 labels predicate sched).getD k 0 = 0 := by
    intro k hk
    have hzero : mid = 0 ∨ a = 0 ∨ b = 0 := by omega
    have hmid0 : (partition e vec 3 labels predicate sched).getD mid 0 = 0 := by
      rcases hzero with h | h | h
      · rw [h]; exact hz
      · rw [e1, h]; exact hz
      · rw [e2, h]; exact hz
    have hk3 : k = mid ∨ k = a ∨ k = b := by omega
    rcases hk3 with h | h | h
    · rw [h]; exact hmid0
    · rw [h, ← e1]; exact hmid0
    · rw [h, ← e2]; exact hmid0
  exact take_three _ 0 0 0 (by rw [partition_length]; exact hlen)
    (hall 0 (by omega)) (hall 1 (by omega)) (hall 2 (by omega))

theorem partition_chain3_witness :
    IsSchedule 3 (lockstepSchedule 3)
      ∧ (partition true chain3 3 [9, 9, 9] (InSameComponint ratModel .exact (1 / 2))
          (lockstepSchedule 3)).take 3 = [0, 0, 0] :=
  ⟨by decide,
    partition_chain3 true chain3 [9, 9, 9] (InSameComponint ratModel .exact (1 / 2))
      (lockstepSchedule 3) rfl (fun a b => InSameComponint_comm _ _ _ a b) (by decide)
      (by decide) 0 1 2 (by decide) (by decide) (by decide) (by decide) (by decide) (by decide)
      (by norm_num [chain3, InSameComponint, InSameComponint.delta, ratModel, iabs,
        IntMode.norm])
      (by norm_num [chain3, InSameComponint, InSameComponint.delta, ratModel, iabs,
        IntMode.norm])
      (by norm_num [chain3, InSameComponint, InSameComponint.delta, ratModel, iabs,
        IntMode.norm])⟩

theorem run_no_pairs (e : Bool) (vec : List Int4) (n : Nat) (pr : Int4 → Int4 → Bool)
    (hnone : ∀ i j, i < n → j < n → i ≠ j →
      pr (vec.getD i default) (vec.getD j default) = false)
    (sched : List Nat) (s : Block) :
    (sched.foldl (Block.step e vec n pr) s).labels = s.labels := by
  induction sched generalizing s with
  | nil => rfl
  | cons a rest ih =>
    rw [List.foldl_cons, ih]
    unfold Block.step
    split_ifs with hc
    · apply partitionStep_of_not
      rintro ⟨hne, hp⟩
      rw [hnone a (s.next a) hc.1 hc.2 hne] at hp
      exact Bool.false_ne_true hp
    · rfl

/-- C3. When no two distinct rectangles below `n` satisfy the predicate,
`partition` ends with `labels[i] = i` for every `i < n`, whatever steps the
lanes take and in whatever order. -/
theorem partition_no_pairs (e : Bool) (vec : List Int4) (n : Nat) (labels : List Int)
    (predicate : Int4 → Int4 → Bool) (sched : List Nat) (_hvec : vec.length = n)
    (hnone : ∀ i j, i < n → j < n → i ≠ j →
      predicate (vec.getD i default) (vec.getD j default) = false)
    (hlen : n ≤ labels.length) :
    (partition e vec n labels predicate sched).length = labels.length
      ∧ ∀ i, i < n → (partition e vec n labels predicate sched).getD i 0 = (i : Int) := by
  refine ⟨partition_length e vec n labels predicate sched, ?_⟩
  intro i hi
  unfold partition partitionRun
  rw [run_no_pairs e vec n predicate hnone, initLabels_getD, if_pos ⟨hi, by omega⟩]

theorem apart_pred (m : IntMode) (i j : Nat) (hi : i < 2) (hj : j < 2) (hne : i ≠ j) :
    InSameComponint ratModel m (1 / 5) (apart.getD i default) (apart.getD j default)
      = false := by
  cases m <;> interval_cases i <;> interval_cases j <;>
    first
    | exact absurd rfl hne
    | norm_num [apart, InSameComponint, InSameComponint.delta, ratModel, iabs,
        IntMode.norm, toInt32]

theorem partition_no_pairs_witness :
    apart.length = 2 ∧ 2 ≤ [5, 5].length
      ∧ (partition true apart 2 [5, 5] (InSameComponint ratModel .wrap32 (1 / 5))
          (sequentialSchedule 2)).length = [5, 5].length
      ∧ ∀ i, i < 2 → (partition true apart 2 [5, 5] (InSameComponint ratModel .wrap32 (1 / 5))
          (sequentialSchedule 2)).getD i 0 = (i : Int) :=
  ⟨rfl, by decide,
    partition_no_pairs true apart 2 [5, 5] (InSameComponint ratModel .wrap32 (1 / 5))
      (sequentialSchedule 2) rfl (apart_pred .wrap32) (by decide)⟩

theorem scenario_delta (m : IntMode) :
    InSameComponint.delta ratModel m (1 / 5) ⟨0, 0, 10, 10⟩ ⟨1, 1, 10, 10⟩ = 2
      ∧ InSameComponint.delta ratModel m (1 / 5) ⟨0, 0, 10, 10⟩ ⟨100, 100, 10, 10⟩ = 2
      ∧ InSameComponint.delta ratModel m (1 / 5) ⟨1, 1, 10, 10⟩ ⟨100, 100, 10, 10⟩ = 2 := by
  cases m <;> norm_num [InSameComponint.delta, ratModel, IntMode.norm, toInt32]

theorem scenario_pred (m : IntMode) :
    InSameComponint ratModel m (1 / 5) ⟨0, 0, 10, 10⟩ ⟨1, 1, 10, 10⟩ = true
      ∧ InSameComponint ratModel m (1 / 5) ⟨0, 0, 10, 10⟩ ⟨100, 100, 10, 10⟩ = false
      ∧ InSameComponint ratModel m (1 / 5) ⟨1, 1, 10, 10⟩ ⟨100, 100, 10, 10⟩ = false := by
  cases m <;>
    norm_num [InSameComponint, InSameComponint.delta, ratModel, iabs, IntMode.norm, toInt32]

/-- C4. With `eps = 1/5` and the rectangles `(0,0,10,10)`, `(1,1,10,10)`,
`(100,100,10,10)`, `InSameComponint` computes `delta = 2` for every pair, holds
for the first two rectangles and fails for each pair involving the third, and
`partition` with `n = 3` ends with `labels = [0, 0, 2]` under every complete
interleaving of the three lanes. -/
theorem partition_scenario (e : Bool) (m : IntMode) (labels : List Int) (sched : List Nat)
    (hlen : 3 ≤ labels.length) (hs : IsSchedule 3 sched) :
    (InSameComponint.delta ratModel m (1 / 5) ⟨0, 0, 10, 10⟩ ⟨1, 1, 10, 10⟩ = 2
        ∧ InSameComponint.delta ratModel m (1 / 5) ⟨0, 0, 10, 10⟩ ⟨100, 100, 10, 10⟩ = 2
        ∧ InSameComponint.delta ratModel m (1 / 5) ⟨1, 1, 10, 10⟩ ⟨100, 100, 10, 10⟩ = 2)
      ∧ (InSameComponint ratModel m (1 / 5) ⟨0, 0, 10, 10⟩ ⟨1, 1, 10, 10⟩ = true
        ∧ InSameComponint ratModel m (1 / 5) ⟨0, 0, 10, 10⟩ ⟨100, 100, 10, 10⟩ = false
        ∧ InSameComponint ratModel m (1 / 5) ⟨1, 1, 10, 10⟩ ⟨100, 100, 10, 10⟩ = false)
      ∧ (partition e scenario 3 labels (InSameComponint ratModel m (1 / 5)) sched).take 3
          = [0, 0, 2] := by
  have hp := scenario_pred m
  have hsym : ∀ a b, InSameComponint ratModel m (1 / 5) a b
      = InSameComponint ratModel m (1 / 5) b a := fun a b => InSameComponint_comm _ _ _ a b
  refine ⟨scenario_delta m, hp, ?_⟩
  have hS := sound_run e scenario 3 labels _ hsym hlen sched
  obtain ⟨m0, hm0, hm0_le, -⟩ := hS 0 (by omega)
  obtain ⟨m1, hm1, hm1_le, -⟩ := hS 1 (by omega)
  obtain ⟨m2, hm2, hm2_le, hc2⟩ := hS 2 (by omega)
  have hp10 : InSameComponint ratModel m (1 / 5) (scenario.getD 1 default)
      (scenario.getD 0 default) = true := by
    rw [hsym]; exact hp.1
  have h10 := final_le_neighbour e scenario 3 labels _ hlen sched hs 1 0 (by omega) (by omega)
    (by omega) hp10
  have hiso : ∀ x, Edge scenario 3 (InSameComponint ratModel m (1 / 5)) 2 x → x = 2 := by
    intro x hx
    obtain ⟨-, hx3, hpx⟩ := hx
    rw [hsym] at hpx
    by_contra hne
    have hx01 : x = 0 ∨ x = 1 := by omega
    rcases hx01 with rfl | rfl
    · rw [show (scenario.getD 0 default) = ⟨0, 0, 10, 10⟩ from rfl,
        show (scenario.getD 2 default) = ⟨100, 100, 10, 10⟩ from rfl, hp.2.1] at hpx
      exact Bool.false_ne_true hpx
    · rw [show (scenario.getD 1 default) = ⟨1, 1, 10, 10⟩ from rfl,
        show (scenario.getD 2 default) = ⟨100, 100, 10, 10⟩ from rfl, hp.2.2] at hpx
      exact Bool.false_ne_true hpx
  have h2 := Conn.of_isolated hiso hc2
  refine take_three _ 0 0 2 (by rw [partition_length]; exact hlen) ?_ ?_ ?_
  · rw [hm0]; omega
  · omega
  · rw [hm2, h2]; rfl

theorem partition_scenario_witness :
    IsSchedule 3 (lockstepSchedule 3)
      ∧ (partition true scenario 3 [4, 4, 4] (InSameComponint ratModel .exact (1 / 5))
          (lockstepSchedule 3)).take 3 = [0, 0, 2] :=
  ⟨by decide,
    (partition_scenario true .exact [4, 4, 4] (lockstepSchedule 3) (by decide) (by decide)).2.2⟩

/-- C10. Soundness of `partition` for a symmetric predicate: after the
initialisation and after any sequence of steps of the lanes, `labels` keeps its
length, every `labels[i]` with `i < n` is an index `m <= i` of a rectangle
connected to `i`, a further step of any lane raises no label, and two positions
holding the same label are connected (so rectangles of different components
never carry the same label). -/
theorem partition_sound (e : Bool) (vec : List Int4) (n : Nat) (labels : List Int)
    (predicate : Int4 → Int4 → Bool) (sched : List Nat) (_hvec : vec.length = n)
    (hsym : ∀ a b, predicate a b = predicate b a) (hlen : n ≤ labels.length) :
    (partition e vec n labels predicate sched).length = labels.length
      ∧ (∀ i, i < n → ∃ m : Nat,
          (partition e vec n labels predicate sched).getD i 0 = (m : Int)
            ∧ m ≤ i ∧ Conn vec n predicate i m)
      ∧ (∀ t i, (partition e vec n labels predicate (sched ++ [t])).getD i 0
          ≤ (partition e vec n labels predicate sched).getD i 0)
      ∧ (∀ i j, i < n → j < n →
          (partition e vec n labels predicate sched).getD i 0
            = (partition e vec n labels predicate sched).getD j 0 →
          Conn vec n predicate i j) := by
  have hS := sound_run e vec n labels predicate hsym hlen sched
  refine ⟨partition_length e vec n labels predicate sched, hS, ?_, ?_⟩
  · intro t i
    unfold partition partitionRun
    rw [List.foldl_append]
    exact step_labels_le e vec n predicate _ t i
  · intro i j hi hj heq
    obtain ⟨mi, hmi, -, hci⟩ := hS i hi
    obtain ⟨mj, hmj, -, hcj⟩ := hS j hj
    have hm : mi = mj := by omega
    rw [hm] at hci
    exact Relation.ReflTransGen.trans hci (Conn.symm hsym hcj)

theorem partition_sound_witness :
    chain3.length = 3 ∧ 3 ≤ [8, 8, 8].length
      ∧ ((partition true chain3 3 [8, 8, 8] (InSameComponint ratModel .exact (1 / 2))
            [2, 0, 1]).length = [8, 8, 8].length
        ∧ (∀ i, i < 3 → ∃ m : Nat,
            (partition true chain3 3 [8, 8, 8] (InSameComponint ratModel .exact (1 / 2))
              [2, 0, 1]).getD i 0 = (m : Int)
              ∧ m ≤ i ∧ Conn chain3 3 (InSameComponint ratModel .exact (1 / 2)) i m)
        ∧ (∀ t i,
            (partition true chain3 3 [8, 8, 8] (InSameComponint ratModel .exact (1 / 2))
              ([2, 0, 1] ++ [t])).getD i 0
            ≤ (partition true chain3 3 [8, 8, 8] (InSameComponint ratModel .exact (1 / 2))
              [2, 0, 1]).getD i 0)
        ∧ (∀ i j, i < 3 → j < 3 →
            (partition true chain3 3 [8, 8, 8] (InSameComponint ratModel .exact (1 / 2))
              [2, 0, 1]).getD i 0
              = (partition true chain3 3 [8, 8, 8] (InSameComponint ratModel .exact (1 / 2))
                [2, 0, 1]).getD j 0 →
            Conn chain3 3 (InSameComponint ratModel .exact (1 / 2)) i j)) :=
  ⟨rfl, by decide,
    partition_sound true chain3 3 [8, 8, 8] (InSameComponint ratModel .exact (1 / 2))
      [2, 0, 1] rfl (fun a b => InSameComponint_comm _ _ _ a b) (by decide)⟩

/-! ### Dependence on the labels held on entry -/

theorem list_ext_getD (A B : List Int) (hlen : A.length = B.length)
    (h : ∀ i, A.getD i 0 = B.getD i 0) : A = B := by
  apply List.ext_getElem hlen
  intro i h1 h2
  have hi := h i
  simpa [List.getD_eq_getElem?_getD, List.getElem?_eq_getElem h1,
    List.getElem?_eq_getElem h2] using hi

theorem take_ext_getD (n : Nat) (A B : List Int) (hA : n ≤ A.length) (hB : n ≤ B.length)
    (h : ∀ i, i < n → A.getD i 0 = B.getD i 0) : A.take n = B.take n := by
  apply List.ext_getElem
  · simp [hA, hB]
  · intro i h1 h2
    have hin : i < n := by
      rw [List.length_take] at h1
      omega
    have hi := h i hin
    have hiA : i < A.length := by omega
    have hiB : i < B.length := by omega
    simpa [List.getD_eq_getElem?_getD, List.getElem?_eq_getElem hiA,
      List.getElem?_eq_getElem hiB] using hi

theorem initLabels_ext (n : Nat) (A B : List Int) (hlen : A.length = B.length)
    (h : ∀ i, n ≤ i → A.getD i 0 = B.getD i 0) : initLabels n A = initLabels n B := by
  apply list_ext_getD
  · rw [initLabels_length, initLabels_length, hlen]
  · intro i
    rw [initLabels_getD, initLabels_getD, hlen]
    split_ifs with hc
    · rfl
    · by_cases hi : i < n
      · have hiB : B.length ≤ i := by
          by_contra hcon
          exact hc ⟨hi, by omega⟩
        have hiA : A.length ≤ i := by omega
        simp [List.getD_eq_getElem?_getD, List.getElem?_eq_none hiA,
          List.getElem?_eq_none hiB]
      · exact h i (by omega)

theorem run_getD_ge (e : Bool) (vec : List Int4) (n : Nat) (pr : Int4 → Int4 → Bool)
    (sched : List Nat) (s : Block) (i : Nat) (hi : n ≤ i) :
    (sched.foldl (Block.step e vec n pr) s).labels.getD i 0 = s.labels.getD i 0 := by
  induction sched generalizing s with
  | nil => rfl
  | cons a rest ih =>
    rw [List.foldl_cons, ih]
    unfold Block.step
    split_ifs with hc
    · rcases partitionStep_copy e vec pr a (s.next a) s.labels i with h | ⟨-, h | h⟩
      · exact h
      · omega
      · omega
    · rfl

theorem partitionStep_agree (e : Bool) (vec : List Int4) (pr : Int4 → Int4 → Bool)
    (n t id : Nat) (ht : t < n) (hid : id < n) (A B : List Int) (hA : n ≤ A.length)
    (hB : n ≤ B.length) (h : ∀ i, i < n → A.getD i 0 = B.getD i 0) (i : Nat) (hi : i < n) :
    (partitionStep e vec pr t id A).getD i 0 = (partitionStep e vec pr t id B).getD i 0 := by
  unfold partitionStep
  simp only [atomicMinStored_eq]
  rw [h t ht, h id hid]
  have hidA : id < A.length := by omega
  have hidB : id < B.length := by omega
  have htA : t < A.length := by omega
  have htB : t < B.length := by omega
  split_ifs
  · rw [getD_set, getD_set]
    simp only [hidA, hidB, and_true, h i hi]
  · rw [getD_set, getD_set]
    simp only [htA, htB, and_true, h i hi]
  · exact h i hi
  · exact h i hi

theorem run_agree (e : Bool) (vec : List Int4) (n : Nat) (pr : Int4 → Int4 → Bool)
    (sched : List Nat) (A B : List Int) (next : Nat → Nat) (hA : n ≤ A.length)
    (hB : n ≤ B.length) (h : ∀ i, i < n → A.getD i 0 = B.getD i 0) (i : Nat) (hi : i < n) :
    (sched.foldl (Block.step e vec n pr) ⟨A, next⟩).labels.getD i 0
      = (sched.foldl (Block.step e vec n pr) ⟨B, next⟩).labels.getD i 0 := by
  induction sched generalizing A B next with
  | nil => exact h i hi
  | cons a rest ih =>
    rw [List.foldl_cons, List.foldl_cons]
    unfold Block.step
    by_cases hc : a < n ∧ next a < n
    · simp only [hc, and_self, if_true]
      apply ih
      · rw [partitionStep_length]; exact hA
      · rw [partitionStep_length]; exact hB
      · intro k hk
        exact partitionStep_agree e vec pr n a (next a) hc.1 hc.2 A B hA hB h k hk
    · simp only [hc, if_false]
      exact ih A B next hA hB h

theorem partition_twice (e : Bool) (vec : List Int4) (n : Nat) (labels : List Int)
    (pr : Int4 → Int4 → Bool) (sched : List Nat) :
    partition e vec n (partition e vec n labels pr sched) pr sched
      = partition e vec n labels pr sched := by
  have hinit : initLabels n (partition e vec n labels pr sched) = initLabels n labels := by
    apply initLabels_ext
    · exact partition_length e vec n labels pr sched
    · intro i hi
      unfold partition partitionRun
      rw [run_getD_ge e vec n pr sched _ i hi, initLabels_getD,
        if_neg (fun hc => absurd hc.1 (by omega))]
  show (partitionRun e vec n (partition e vec n labels pr sched) pr sched).labels
    = (partitionRun e vec n labels pr sched).labels
  unfold partitionRun
  rw [hinit]

/-- C6. `partition` is idempotent on its labels array: run again, with the same
interleaving, on the labels the first run left, it leaves the same array; and
the `n` labels it produces do not depend on what the array held on entry. -/
theorem partition_idempotent (e : Bool) (vec : List Int4) (n : Nat) (labels : List Int)
    (predicate : Int4 → Int4 → Bool) (sched : List Nat) (labels1 : List Int)
    (hlen : n ≤ labels.length) (hlen1 : n ≤ labels1.length) :
    partition e vec n (partition e vec n labels predicate sched) predicate sched
        = partition e vec n labels predicate sched
      ∧ (partition e vec n labels1 predicate sched).take n
        = (partition e vec n labels predicate sched).take n := by
  refine ⟨partition_twice e vec n labels predicate sched, ?_⟩
  apply take_ext_getD
  · rw [partition_length]; exact hlen1
  · rw [partition_length]; exact hlen
  · intro i hi
    unfold partition partitionRun
    apply run_agree
    · rw [initLabels_length]; exact hlen1
    · rw [initLabels_length]; exact hlen
    · intro k hk
      rw [initLabels_getD, initLabels_getD, if_pos ⟨hk, by omega⟩, if_pos ⟨hk, by omega⟩]
    · exact hi

theorem partition_idempotent_witness :
    3 ≤ [8, 8, 8].length ∧ 3 ≤ [-1, 5, 0, 2].length
      ∧ partition true chain3 3
          (partition true chain3 3 [8, 8, 8] (InSameComponint ratModel .exact (1 / 2))
            (lockstepSchedule 3))
          (InSameComponint ratModel .exact (1 / 2)) (lockstepSchedule 3)
        = partition true chain3 3 [8, 8, 8] (InSameComponint ratModel .exact (1 / 2))
            (lockstepSchedule 3)
      ∧ (partition true chain3 3 [-1, 5, 0, 2] (InSameComponint ratModel .exact (1 / 2))
            (lockstepSchedule 3)).take 3
        = (partition true chain3 3 [8, 8, 8] (InSameComponint ratModel .exact (1 / 2))
            (lockstepSchedule 3)).take 3 :=
  ⟨by decide, by decide,
    partition_idempotent true chain3 3 [8, 8, 8] (InSameComponint ratModel .exact (1 / 2))
      (lockstepSchedule 3) [-1, 5, 0, 2] (by decide) (by decide)⟩

end Lbp
